import Mathlib

/-!
Shallow embedding of `dask_ndfourier/core.py` (dask-image/dask-ndfourier).

The embedding idealises machine floating point as exact real/complex
arithmetic (`ℝ`, `ℂ`); dtypes are tracked separately as tags, so dtype
promotion is value-preserving.  Chunked dask arrays are modelled as a
logical shape, a per-axis chunk partition, and a total valuation from
(multi-)indices to values.  Lazy graphs are modelled by the fact that a
returned array's valuation is a pure function; raising an exception is
modelled by `Except`.
-/

/-! ### Chunk-partition machinery

A chunk partition of an axis of extent `n` is a list of block sizes.
dask's `unify_chunks` (invoked implicitly by `dask.array.stack` and by
elementwise operations on arrays with differing chunk structures)
rechunks all operands to the common refinement of their partitions; the
common refinement is the partition whose cut positions (prefix sums) are
the union of the operands' cut positions. -/

/-- Cut positions of a chunk partition laid out starting at offset `t`:
`cutsFrom t [b₁, b₂, …] = [t+b₁, t+b₁+b₂, …]`. -/
def cutsFrom (t : ℕ) : List ℕ → List ℕ
  | [] => []
  | b :: p => (t + b) :: cutsFrom (t + b) p

/-- Recover block sizes from a sorted list of cut positions. -/
def sizesFromCuts (t : ℕ) : List ℕ → List ℕ
  | [] => []
  | x :: xs => (x - t) :: sizesFromCuts x xs

/-- Merge two sorted duplicate-free lists of cut positions into their
sorted duplicate-free union. -/
def mergeSorted : List ℕ → List ℕ → List ℕ
  | [], ys => ys
  | xs, [] => xs
  | x :: xs, y :: ys =>
    if x < y then x :: mergeSorted xs (y :: ys)
    else if y < x then y :: mergeSorted (x :: xs) ys
    else x :: mergeSorted xs ys
termination_by xs ys => xs.length + ys.length

/-- Common refinement of a list of chunk partitions of one axis
(the model of dask's `unify_chunks` on that axis). -/
def unifyParts (ps : List (List ℕ)) : List ℕ :=
  sizesFromCuts 0 (ps.foldl (fun acc p => mergeSorted acc (cutsFrom 0 p)) [])

/-- Strictly ascending list of naturals. -/
def StrictAsc : List ℕ → Prop
  | [] => True
  | [_] => True
  | a :: b :: t => a < b ∧ StrictAsc (b :: t)

/-! ### Chunked lazy arrays and the operations `core.py` uses

`DArr α` is an intermediate (dtype-less) chunked lazy array: logical
shape, per-axis chunk partition, and a total valuation on multi-indices
(`List ℕ`).  Out-of-range indices are harmless: every operation is a
pure function on the valuation. -/

structure DArr (α : Type) where
  shape : List ℕ
  chunks : List (List ℕ)
  val : List ℕ → α

/-- numpy dtype families, as far as `core.py` distinguishes them
(`numbers.Integral`, `numbers.Real`, complex). -/
inductive NumKind
  | int
  | float
  | cplx
deriving DecidableEq

/-- `input.real.dtype`: the real-component precision of a dtype. -/
def NumKind.realKind : NumKind → NumKind
  | NumKind.cplx => NumKind.float
  | k => k

/-- Elementwise map (`dask.array.exp`, `** 2`, scalar multiply, dtype
cast: all pointwise graph operations preserve shape and chunks). -/
def DArr.map {α β : Type} (f : α → β) (a : DArr α) : DArr β :=
  ⟨a.shape, a.chunks, fun idx => f (a.val idx)⟩

/-- `a[sl]` where `sl` has `slice(None)` in position `i` and `None`
(new length-1 axis) everywhere else, applied to a 1-D array: the result
is `ndim`-dimensional with extent/chunking of `a` on axis `i` and
extent 1 (single chunk) on every other axis; the value depends only on
coordinate `i`. -/
def sliceExpand {α : Type} (ndim i : ℕ) (a : DArr α) : DArr α :=
  ⟨(List.range ndim).map (fun j => if j = i then a.shape.getD 0 1 else 1),
   (List.range ndim).map (fun j => if j = i then a.chunks.getD 0 [] else [1]),
   fun idx => a.val [idx.getD i 0]⟩

/-- `a.repeat(m, axis=j)` (numpy/dask semantics: every element is
repeated `m` consecutive times along axis `j`, so output index `k` reads
input index `k / m`).  `core.py` only ever applies this to axes of
extent 1 carrying the single chunk `[1]`, for which dask produces the
single chunk `[m]`; the blockwise size map `· * m` below agrees with
that on this domain. -/
def repeatAx {α : Type} (j m : ℕ) (a : DArr α) : DArr α :=
  ⟨a.shape.set j (a.shape.getD j 0 * m),
   a.chunks.set j ((a.chunks.getD j []).map (fun b => b * m)),
   fun idx => a.val (idx.set j (idx.getD j 0 / m))⟩

/-- `dask.array.stack(fields)`: new leading axis of extent
`fields.length`, one chunk per stacked element; the trailing chunks are
unified (`unify_chunks`) to the common refinement of the fields'
chunks, which rechunks lazily without changing any value. -/
def stackArr {α : Type} (z : α) (fields : List (DArr α)) : DArr α :=
  ⟨fields.length :: (fields.headD ⟨[], [], fun _ => z⟩).shape,
   List.replicate fields.length 1 ::
     (List.range (fields.headD ⟨[], [], fun _ => z⟩).shape.length).map
       (fun j => unifyParts (fields.map (fun f => f.chunks.getD j []))),
   fun idx => (fields.getD (idx.headD 0) ⟨[], [], fun _ => z⟩).val idx.tail⟩

/-- `tensordot(v, a, axes=1)` with a 1-D first factor: contract the
leading (stacked) axis of `a` against `v`; the surviving axes keep
`a`'s trailing shape and chunks. -/
def tensordot1 (v : List ℝ) (a : DArr ℝ) : DArr ℝ :=
  ⟨a.shape.tail, a.chunks.tail,
   fun idx => ∑ i ∈ Finset.range v.length, v.getD i 0 * a.val (i :: idx)⟩

/-- Modelled from the spec: `_compat._fftfreq(n, chunks=ch)` — the
chunk-aware 1-D signed frequency sequence.  `_compat.py` is not part of
the sources; per the spec it produces the values
`0, 1, …, ⌊(n-1)/2⌋, -⌊n/2⌋, …, -1` divided by `n`, in that wrap-around
order, chunked exactly as requested. -/
def fftfreqVal (n k : ℕ) : ℚ :=
  (if k ≤ (n - 1) / 2 then (k : ℚ) else (k : ℚ) - (n : ℚ)) / (n : ℚ)

/-- Modelled from the spec: the lazy 1-D array `_compat._fftfreq`
returns, with the requested chunk partition. -/
noncomputable def _fftfreq (n : ℕ) (ch : List ℕ) : DArr ℝ :=
  ⟨[n], [ch], fun idx => ((fftfreqVal n (idx.headD 0) : ℚ) : ℝ)⟩

/-- `_get_freq_grid(shape, chunks, dtype)` from `core.py`: per axis `i`,
take the chunk-aware 1-D fftfreq sequence, insert length-1 axes
(`[sl]`), `repeat` it along every other axis `j ≠ i` up to `shape[j]`,
stack the fields along a new leading axis, and scale by `2π`.  The
`dtype` argument selects the floating precision of `π` in the code; in
this exact-arithmetic model it does not influence any value. -/
noncomputable def _get_freq_grid (shape : List ℕ) (chunks : List (List ℕ))
    (dtype : NumKind := NumKind.float) : DArr ℝ :=
  let ndim := shape.length
  let fields := (List.range ndim).map (fun i =>
    ((List.range ndim).filter (fun j => decide (j ≠ i))).foldl
      (fun acc j => repeatAx j (shape.getD j 0) acc)
      (sliceExpand ndim i (_fftfreq (shape.getD i 0) (chunks.getD i []))))
  DArr.map (fun x => 2 * Real.pi * x) (stackArr 0 fields)

/-- Proof apparatus: the field `core.py` builds for axis `i` inside
`_get_freq_grid` (the fold of `repeat` over the axes `j ≠ i` applied to
the expanded 1-D fftfreq sequence).  `_get_freq_grid` is definitionally
the scaled stack of these. -/
noncomputable def gridField (s : List ℕ) (c : List (List ℕ)) (i : ℕ) : DArr ℝ :=
  ((List.range s.length).filter (fun j => decide (j ≠ i))).foldl
    (fun acc j => repeatAx j (s.getD j 0) acc)
    (sliceExpand s.length i (_fftfreq (s.getD i 0) (c.getD i [])))


/-! ### The public filters

`DaskArray` adds the dtype tag the filters inspect.  `PyVal`/`PyArg`
model the duck-typed `sigma`/`shift` argument: a single Python object
(a real number, a complex number, or some non-numeric object such as a
dict) or a sequence of such objects.  `PyErr` models the exception
classes raised synchronously by the validation code. -/

structure DaskArray where
  shape : List ℕ
  chunks : List (List ℕ)
  dtype : NumKind
  val : List ℕ → ℂ

/-- A Python object in an argument position: a value of a `numbers.Real`
type, a value of complex type (never `numbers.Real`, whatever its
imaginary part), or a non-numeric object. -/
inductive PyVal
  | real (x : ℝ)
  | cplx (z : ℂ)
  | obj

/-- `isinstance(v, numbers.Number)` -/
def PyVal.isNumber : PyVal → Bool
  | PyVal.real _ => true
  | PyVal.cplx _ => true
  | PyVal.obj => false

/-- `isinstance(v, numbers.Real)` -/
def PyVal.isReal : PyVal → Bool
  | PyVal.real _ => true
  | PyVal.cplx _ => false
  | PyVal.obj => false

/-- The real number a `PyVal` denotes; only consulted after the
`isReal` check has succeeded. -/
def PyVal.toReal : PyVal → ℝ
  | PyVal.real x => x
  | PyVal.cplx z => z.re
  | PyVal.obj => 0

/-- Elementwise negation of a numeric `PyVal` (used to state
sign-invariance). -/
def PyVal.neg : PyVal → PyVal
  | PyVal.real x => PyVal.real (-x)
  | PyVal.cplx z => PyVal.cplx (-z)
  | PyVal.obj => PyVal.obj

/-- The `sigma` / `shift` argument: `isinstance(·, numbers.Number)`
dispatches on `val` being numeric, `isinstance(·, collections.Sequence)`
on the `seq` constructor; a non-numeric non-sequence object (e.g. `{}`)
is `val PyVal.obj`. -/
inductive PyArg
  | val (v : PyVal)
  | seq (xs : List PyVal)

/-- The exception classes the validation code raises. -/
inductive PyErr
  | typeError
  | runtimeError
  | notImplementedError
deriving DecidableEq

/-- A valid argument in the sense of the spec: a real scalar, or a
sequence of reals whose length equals the rank (derived vocabulary for
the theorems, not part of the code). -/
def PyArg.valid : PyArg → ℕ → Bool
  | PyArg.val v, _ => v.isReal
  | PyArg.seq xs, r => decide (xs.length = r) && xs.all PyVal.isReal

/-- The normalized per-axis real vector of a valid argument (derived
vocabulary for the theorems). -/
def PyArg.toVec : PyArg → ℕ → List ℝ
  | PyArg.val v, r => List.replicate r v.toReal
  | PyArg.seq xs, _ => xs.map PyVal.toReal

/-- Elementwise multiply of a dask array by a real-valued kernel
(`input * gaussian`): dask unifies the operands' chunks; the dtype is
unchanged (float·real = float, complex·real = complex). -/
def elemMulR (a : DaskArray) (g : DArr ℝ) : DaskArray :=
  ⟨a.shape,
   (List.range a.shape.length).map
     (fun j => unifyParts [a.chunks.getD j [], g.chunks.getD j []]),
   a.dtype,
   fun idx => a.val idx * ((g.val idx : ℝ) : ℂ)⟩

/-- Elementwise multiply of a (complex) dask array by a complex-valued
kernel (`input * phase_shift`). -/
def elemMulC (a : DaskArray) (g : DArr ℂ) : DaskArray :=
  ⟨a.shape,
   (List.range a.shape.length).map
     (fun j => unifyParts [a.chunks.getD j [], g.chunks.getD j []]),
   a.dtype,
   fun idx => a.val idx * g.val idx⟩

/-- `fourier_gaussian(input, sigma, n=-1, axis=-1)` from `core.py`.

Steps, in source order: promote integral input to float; normalize
`sigma` (scalar → replicate to rank, non-sequence → `TypeError`); check
length against rank (`RuntimeError`); check elementwise realness
(`TypeError`); reject `n != -1` (`NotImplementedError`); build the
frequency grid at the input's real-component precision; form
`exp(-tensordot(sigma**2, frequency**2, axes=1) / 2)`; multiply into
the input. -/
noncomputable def fourier_gaussian (input : DaskArray) (sigma : PyArg)
    (n : ℤ := -1) (axis : ℤ := -1) : Except PyErr DaskArray :=
  let inp := if input.dtype = NumKind.int then
    { input with dtype := NumKind.float } else input
  let sigmaNorm : Except PyErr (List PyVal) :=
    match sigma with
    | PyArg.val v =>
      if v.isNumber then Except.ok (List.replicate inp.shape.length v)
      else Except.error PyErr.typeError
    | PyArg.seq xs => Except.ok xs
  match sigmaNorm with
  | Except.error e => Except.error e
  | Except.ok sigmaL =>
    if sigmaL.length ≠ inp.shape.length then Except.error PyErr.runtimeError
    else if ¬ sigmaL.all PyVal.isReal then Except.error PyErr.typeError
    else if n ≠ -1 then Except.error PyErr.notImplementedError
    else
      let sigmaV : List ℝ := sigmaL.map PyVal.toReal
      let frequency := _get_freq_grid inp.shape inp.chunks inp.dtype.realKind
      let gaussian := DArr.map Real.exp
        (DArr.map (fun t => -t / 2)
          (tensordot1 (sigmaV.map (fun x => x ^ 2))
            (DArr.map (fun x => x ^ 2) frequency)))
      Except.ok (elemMulR inp gaussian)

/-- `fourier_shift(input, shift, n=-1, axis=-1)` from `core.py`.

Steps, in source order: promote real (including integral) input to
complex; normalize and validate `shift` exactly as `sigma`; reject
`n != -1`; set `J = dtype(1j)`; build the frequency grid at the input's
(complex) dtype — its values are real; form
`exp(-J * tensordot(shift, freq_grid, axes=1))`; multiply into the
input. -/
noncomputable def fourier_shift (input : DaskArray) (shift : PyArg)
    (n : ℤ := -1) (axis : ℤ := -1) : Except PyErr DaskArray :=
  let inp := if input.dtype ≠ NumKind.cplx then
    { input with dtype := NumKind.cplx } else input
  let shiftNorm : Except PyErr (List PyVal) :=
    match shift with
    | PyArg.val v =>
      if v.isNumber then Except.ok (List.replicate inp.shape.length v)
      else Except.error PyErr.typeError
    | PyArg.seq xs => Except.ok xs
  match shiftNorm with
  | Except.error e => Except.error e
  | Except.ok shiftL =>
    if shiftL.length ≠ inp.shape.length then Except.error PyErr.runtimeError
    else if ¬ shiftL.all PyVal.isReal then Except.error PyErr.typeError
    else if n ≠ -1 then Except.error PyErr.notImplementedError
    else
      let shiftV : List ℝ := shiftL.map PyVal.toReal
      let freq_grid := _get_freq_grid inp.shape inp.chunks inp.dtype
      let phase_shift := DArr.map Complex.exp
        (DArr.map (fun t : ℝ => -(Complex.I * (t : ℂ)))
          (tensordot1 shiftV freq_grid))
      Except.ok (elemMulC inp phase_shift)

/-- Evaluated-result equality: two lazy computations are numerically
identical once fully evaluated when they raise the same error or
produce arrays of the same logical shape, dtype and values (the chunk
partitions, a purely organisational layout, may differ). -/
def EvalEq : Except PyErr DaskArray → Except PyErr DaskArray → Prop
  | Except.error e, Except.error e2 => e = e2
  | Except.ok a, Except.ok b => a.shape = b.shape ∧ a.dtype = b.dtype ∧ a.val = b.val
  | _, _ => False

/-- A concrete 1-D complex array (two elements, one chunk) used by the
witnesses. -/
noncomputable def sampleArr : DaskArray :=
  ⟨[2], [[2]], NumKind.cplx, fun idx => (idx.headD 0 : ℂ) + 1⟩

/-- The same logical array as `sampleArr` under a finer chunk
partition. -/
noncomputable def sampleArrRechunk : DaskArray :=
  ⟨[2], [[1, 1]], NumKind.cplx, fun idx => (idx.headD 0 : ℂ) + 1⟩

/-- A concrete zero-dimensional array (rank 0, empty shape). -/
noncomputable def sampleArr0 : DaskArray :=
  ⟨[], [], NumKind.cplx, fun _ => 7⟩


theorem cutsFrom_le_sum (p : List ℕ) : ∀ t, ∀ y ∈ cutsFrom t p, y ≤ t + p.sum := by
  induction p with
  | nil => intro t y hy; cases hy
  | cons b p ih =>
    intro t y hy
    rcases List.mem_cons.mp hy with rfl | hy2
    · simp only [List.sum_cons]; omega
    · have := ih (t + b) y hy2
      simp [List.sum_cons] at this ⊢
      omega

theorem sum_mem_cutsFrom (p : List ℕ) (hne : p ≠ []) : ∀ t, t + p.sum ∈ cutsFrom t p := by
  induction p with
  | nil => exact absurd rfl hne
  | cons b p ih =>
    intro t
    cases p with
    | nil => simp [cutsFrom]
    | cons b2 p2 =>
      have := ih (by simp) (t + b)
      have harr : t + (b :: b2 :: p2).sum = (t + b) + (b2 :: p2).sum := by
        simp [List.sum_cons]; ring
      rw [harr]
      exact List.mem_cons_of_mem _ this

theorem strictAsc_cutsFrom (p : List ℕ) (hp : ∀ x ∈ p, 0 < x) :
    ∀ t, StrictAsc (cutsFrom t p) := by
  induction p with
  | nil => intro t; trivial
  | cons b p ih =>
    intro t
    have hb : 0 < b := hp b (List.mem_cons_self _ _)
    have hrest : ∀ x ∈ p, 0 < x := fun x hx => hp x (List.mem_cons_of_mem _ hx)
    cases p with
    | nil => trivial
    | cons b2 p2 =>
      refine ⟨?_, ih hrest (t + b)⟩
      have : 0 < b2 := hrest b2 (List.mem_cons_self _ _)
      omega

theorem sizesFromCuts_cutsFrom (p : List ℕ) : ∀ t, sizesFromCuts t (cutsFrom t p) = p := by
  induction p with
  | nil => intro t; rfl
  | cons b p ih =>
    intro t
    show (t + b - t) :: sizesFromCuts (t + b) (cutsFrom (t + b) p) = b :: p
    rw [ih (t + b)]
    congr 1
    omega

theorem mergeSorted_nil_left (ys : List ℕ) : mergeSorted [] ys = ys := by
  rw [mergeSorted.eq_def]; cases ys <;> rfl

theorem mergeSorted_nil_right (xs : List ℕ) : mergeSorted xs [] = xs := by
  rw [mergeSorted.eq_def]; cases xs <;> simp

theorem mergeSorted_cons_cons (x y : ℕ) (xs ys : List ℕ) :
    mergeSorted (x :: xs) (y :: ys) =
      if x < y then x :: mergeSorted xs (y :: ys)
      else if y < x then y :: mergeSorted (x :: xs) ys
      else x :: mergeSorted xs ys := by
  rw [mergeSorted.eq_def]

theorem mergeSorted_self (xs : List ℕ) : mergeSorted xs xs = xs := by
  induction xs with
  | nil => exact mergeSorted_nil_left []
  | cons x t ih =>
    rw [mergeSorted_cons_cons]
    simp [lt_irrefl, ih]

theorem strictAsc_tail (a : ℕ) (t : List ℕ) (h : StrictAsc (a :: t)) : StrictAsc t := by
  cases t with
  | nil => trivial
  | cons b t2 => exact h.2

theorem strictAsc_head_lt (a : ℕ) (t : List ℕ) (h : StrictAsc (a :: t)) :
    ∀ y ∈ t, a < y := by
  induction t generalizing a with
  | nil => intro y hy; cases hy
  | cons b t2 ih =>
    intro y hy
    have hab : a < b := h.1
    rcases List.mem_cons.mp hy with rfl | hy2
    · exact hab
    · exact lt_trans hab (ih b h.2 y hy2)

theorem mergeSorted_max_right (xs : List ℕ) (m : ℕ)
    (hasc : StrictAsc xs) (hub : ∀ y ∈ xs, y ≤ m) (hm : m ∈ xs) :
    mergeSorted xs [m] = xs := by
  induction xs with
  | nil => cases hm
  | cons x t ih =>
    by_cases hx : x = m
    · subst hx
      have ht : t = [] := by
        cases t with
        | nil => rfl
        | cons b t2 =>
          have h1 : x < b := (strictAsc_head_lt x (b :: t2) hasc) b (by simp)
          have h2 : b ≤ x := hub b (by simp)
          omega
      subst ht
      rw [mergeSorted_cons_cons]
      simp [lt_irrefl, mergeSorted_nil_left]
    · have hmt : m ∈ t := by
        rcases List.mem_cons.mp hm with h | h
        · exact absurd h.symm hx
        · exact h
      have hlt : x < m := lt_of_le_of_ne (hub x (by simp)) hx
      rw [mergeSorted_cons_cons]
      simp only [hlt, if_true]
      congr 1
      exact ih (strictAsc_tail _ _ hasc) (fun y hy => hub y (List.mem_cons_of_mem _ hy)) hmt

theorem mergeSorted_max_left (xs : List ℕ) (m : ℕ)
    (hasc : StrictAsc xs) (hub : ∀ y ∈ xs, y ≤ m) (hm : m ∈ xs) :
    mergeSorted [m] xs = xs := by
  induction xs with
  | nil => cases hm
  | cons x t ih =>
    by_cases hx : x = m
    · subst hx
      have ht : t = [] := by
        cases t with
        | nil => rfl
        | cons b t2 =>
          have h1 : x < b := (strictAsc_head_lt x (b :: t2) hasc) b (by simp)
          have h2 : b ≤ x := hub b (by simp)
          omega
      subst ht
      rw [mergeSorted_cons_cons]
      simp [lt_irrefl, mergeSorted_nil_right]
    · have hmt : m ∈ t := by
        rcases List.mem_cons.mp hm with h | h
        · exact absurd h.symm hx
        · exact h
      have hlt : x < m := lt_of_le_of_ne (hub x (by simp)) hx
      rw [mergeSorted_cons_cons]
      have hnlt : ¬ m < x := by omega
      simp only [hnlt, if_false, hlt, if_true]
      congr 1
      exact ih (strictAsc_tail _ _ hasc) (fun y hy => hub y (List.mem_cons_of_mem _ hy)) hmt

/-- Folding `mergeSorted` over a bag of cut lists that are each either
the interesting partition `K` or the trivial one-block partition `[m]`
(with `m` the extent, the largest cut of `K`) returns `K` as soon as `K`
has been seen.  This is the heart of why `dask.array.stack`'s chunk
unification reproduces the caller's partition on every trailing axis. -/
theorem unify_fold_eq (K : List ℕ) (m : ℕ)
    (hasc : StrictAsc K) (hub : ∀ y ∈ K, y ≤ m) (hm : m ∈ K) :
    ∀ (h : List (List ℕ)), (∀ q ∈ h, q = K ∨ q = [m]) →
    ∀ acc, (acc = [] ∨ acc = [m] ∨ acc = K) → (K ∈ h ∨ acc = K) →
      h.foldl mergeSorted acc = K := by
  intro h
  induction h with
  | nil =>
    intro _ acc _ hin
    rcases hin with h0 | h0
    · cases h0
    · simpa using h0
  | cons q t ih =>
    intro hstep acc hacc hin
    have hq := hstep q (List.mem_cons_self _ _)
    have hrest : ∀ r ∈ t, r = K ∨ r = [m] := fun r hr => hstep r (List.mem_cons_of_mem _ hr)
    have hmergeK : q = K → mergeSorted acc q = K := by
      intro h0
      rw [h0]
      rcases hacc with h1 | h1 | h1 <;> rw [h1]
      · exact mergeSorted_nil_left K
      · exact mergeSorted_max_left K m hasc hub hm
      · exact mergeSorted_self K
    have hmergeAcc : acc = K → mergeSorted acc q = K := by
      intro h0
      rw [h0]
      rcases hq with h1 | h1 <;> rw [h1]
      · exact mergeSorted_self K
      · exact mergeSorted_max_right K m hasc hub hm
    have hstate : mergeSorted acc q = [] ∨ mergeSorted acc q = [m] ∨ mergeSorted acc q = K := by
      rcases hq with h1 | h1
      · exact Or.inr (Or.inr (hmergeK h1))
      · rw [h1]
        rcases hacc with h2 | h2 | h2 <;> rw [h2]
        · exact Or.inr (Or.inl (mergeSorted_nil_left [m]))
        · exact Or.inr (Or.inl (mergeSorted_self [m]))
        · exact Or.inr (Or.inr (mergeSorted_max_right K m hasc hub hm))
    rw [List.foldl_cons]
    rcases hin with hmem | h0
    · rcases List.mem_cons.mp hmem with hKq | hKt
      · exact ih hrest (mergeSorted acc q) hstate (Or.inr (hmergeK hKq.symm))
      · exact ih hrest (mergeSorted acc q) hstate (Or.inl hKt)
    · exact ih hrest (mergeSorted acc q) hstate (Or.inr (hmergeAcc h0))

/-- Unifying a family of axis partitions in which one member is the real
partition `p` (total `n`, positive blocks) and all others are the
trivial single-block partition `[n]` gives back `p`. -/
theorem unifyParts_eq (p : List ℕ) (n : ℕ)
    (hpos : ∀ x ∈ p, 0 < x) (hsum : p.sum = n) (hne : p ≠ [])
    (ps : List (List ℕ)) (hq : ∀ q ∈ ps, q = p ∨ q = [n]) (hmem : p ∈ ps) :
    unifyParts ps = p := by
  have hfold : ps.foldl (fun acc q => mergeSorted acc (cutsFrom 0 q)) [] = cutsFrom 0 p := by
    have hmap : ps.foldl (fun acc q => mergeSorted acc (cutsFrom 0 q)) [] =
        (ps.map (cutsFrom 0)).foldl mergeSorted [] := (List.foldl_map _ _ _ _).symm
    rw [hmap]
    refine unify_fold_eq (cutsFrom 0 p) n (strictAsc_cutsFrom p hpos 0) ?_ ?_ _ ?_ [] (Or.inl rfl) ?_
    · intro y hy
      have := cutsFrom_le_sum p 0 y hy
      omega
    · have := sum_mem_cutsFrom p hne 0
      rw [hsum] at this
      simpa using this
    · intro q hqmem
      rcases List.mem_map.mp hqmem with ⟨r, hr, hrq⟩
      rcases hq r hr with h1 | h1
      · left; rw [← hrq, h1]
      · right; rw [← hrq, h1]; simp [cutsFrom]
    · left
      exact List.mem_map.mpr ⟨p, hmem, rfl⟩
  unfold unifyParts
  rw [hfold, sizesFromCuts_cutsFrom]

/-- Unifying a partition with itself (two elementwise operands chunked
identically) is the identity; no validity assumptions are needed. -/
theorem unifyParts_pair_self (p : List ℕ) : unifyParts [p, p] = p := by
  unfold unifyParts
  simp only [List.foldl_cons, List.foldl_nil, mergeSorted_nil_left, mergeSorted_self]
  exact sizesFromCuts_cutsFrom p 0

/-! ### `List.getD` helpers -/

theorem getD_out {α : Type} (l : List α) (i : ℕ) (d : α) (h : l.length ≤ i) :
    l.getD i d = d := by
  induction l generalizing i with
  | nil => simp [List.getD]
  | cons x t ih =>
    cases i with
    | zero => simp at h
    | succ j =>
      simp only [List.getD_cons_succ]
      exact ih j (by simpa using h)

theorem getD_set_self {α : Type} (l : List α) (i : ℕ) (v d : α) :
    (l.set i v).getD i d = if i < l.length then v else d := by
  induction l generalizing i with
  | nil => simp [List.getD]
  | cons x t ih =>
    cases i with
    | zero => simp
    | succ j =>
      simp only [List.set_cons_succ, List.getD_cons_succ, List.length_cons]
      rw [ih j]
      by_cases h : j < t.length <;> simp [h, Nat.succ_lt_succ_iff]

theorem getD_set_ne {α : Type} (l : List α) (i j : ℕ) (v d : α) (h : i ≠ j) :
    (l.set i v).getD j d = l.getD j d := by
  induction l generalizing i j with
  | nil => simp
  | cons x t ih =>
    cases i with
    | zero =>
      cases j with
      | zero => exact absurd rfl h
      | succ j2 => simp
    | succ i2 =>
      cases j with
      | zero => simp
      | succ j2 =>
        simp only [List.set_cons_succ, List.getD_cons_succ]
        exact ih i2 j2 (fun hc => h (by rw [hc]))

theorem getD_map_range {α : Type} (n j : ℕ) (f : ℕ → α) (d : α) (h : j < n) :
    ((List.range n).map f).getD j d = f j := by
  have h1 : ((List.range n).map f).length = n := by simp
  have h2 : j < ((List.range n).map f).length := by rw [h1]; exact h
  rw [List.getD_eq_getElem _ _ h2]
  simp

theorem getD_map {α β : Type} (l : List α) (f : α → β) (i : ℕ) (da : α) (db : β)
    (hd : f da = db) : (l.map f).getD i db = f (l.getD i da) := by
  induction l generalizing i with
  | nil => simp [List.getD, hd.symm]
  | cons x t ih =>
    cases i with
    | zero => simp
    | succ j => simpa using ih j

theorem list_eq_of_getD {α : Type} (d : α) (l₁ l₂ : List α)
    (hlen : l₁.length = l₂.length)
    (h : ∀ j, j < l₁.length → l₁.getD j d = l₂.getD j d) : l₁ = l₂ := by
  induction l₁ generalizing l₂ with
  | nil =>
    cases l₂ with
    | nil => rfl
    | cons y t2 => simp at hlen
  | cons x t ih =>
    cases l₂ with
    | nil => simp at hlen
    | cons y t2 =>
      have hx : x = y := by simpa using h 0 (by simp)
      have ht : t = t2 := by
        refine ih t2 (by simpa using hlen) ?_
        intro j hj
        simpa using h (j + 1) (by simpa using Nat.succ_lt_succ hj)
      rw [hx, ht]

theorem getD_replicate_self {α : Type} (n i : ℕ) (a : α) :
    (List.replicate n a).getD i a = a := by
  induction n generalizing i with
  | zero => simp [List.getD]
  | succ k ih =>
    cases i with
    | zero => simp [List.replicate]
    | succ j => simp only [List.replicate, List.getD_cons_succ]; exact ih j

/-! ### Characterisation of one stacked field

`core.py` builds field `i` as a fold of `repeatAx` over the axes
`j ≠ i`.  The following lemmas compute shape, chunks and valuation of
that fold positionally. -/

theorem foldl_repeatAx_shape_len {α : Type} (s : List ℕ) (l : List ℕ) :
    ∀ a : DArr α,
      (l.foldl (fun acc j => repeatAx j (s.getD j 0) acc) a).shape.length = a.shape.length := by
  induction l with
  | nil => intro a; rfl
  | cons k t ih =>
    intro a
    rw [List.foldl_cons, ih]
    simp [repeatAx]

theorem foldl_repeatAx_chunks_len {α : Type} (s : List ℕ) (l : List ℕ) :
    ∀ a : DArr α,
      (l.foldl (fun acc j => repeatAx j (s.getD j 0) acc) a).chunks.length = a.chunks.length := by
  induction l with
  | nil => intro a; rfl
  | cons k t ih =>
    intro a
    rw [List.foldl_cons, ih]
    simp [repeatAx]

theorem foldl_repeatAx_shape_notmem {α : Type} (s : List ℕ) (l : List ℕ) (j : ℕ)
    (hj : j ∉ l) : ∀ a : DArr α,
      (l.foldl (fun acc j => repeatAx j (s.getD j 0) acc) a).shape.getD j 0 =
        a.shape.getD j 0 := by
  induction l with
  | nil => intro a; rfl
  | cons k t ih =>
    intro a
    have hk : k ≠ j := fun h => hj (h ▸ List.mem_cons_self _ _)
    have hjt : j ∉ t := fun h => hj (List.mem_cons_of_mem _ h)
    rw [List.foldl_cons, ih hjt]
    exact getD_set_ne _ _ _ _ _ hk

theorem foldl_repeatAx_chunks_notmem {α : Type} (s : List ℕ) (l : List ℕ) (j : ℕ)
    (hj : j ∉ l) : ∀ a : DArr α,
      (l.foldl (fun acc j => repeatAx j (s.getD j 0) acc) a).chunks.getD j [] =
        a.chunks.getD j [] := by
  induction l with
  | nil => intro a; rfl
  | cons k t ih =>
    intro a
    have hk : k ≠ j := fun h => hj (h ▸ List.mem_cons_self _ _)
    have hjt : j ∉ t := fun h => hj (List.mem_cons_of_mem _ h)
    rw [List.foldl_cons, ih hjt]
    exact getD_set_ne _ _ _ _ _ hk

theorem foldl_repeatAx_shape_mem {α : Type} (s : List ℕ) (l : List ℕ) (j : ℕ)
    (hnd : l.Nodup) (hj : j ∈ l) : ∀ a : DArr α,
      (l.foldl (fun acc j => repeatAx j (s.getD j 0) acc) a).shape.getD j 0 =
        a.shape.getD j 0 * s.getD j 0 := by
  induction l with
  | nil => cases hj
  | cons k t ih =>
    intro a
    by_cases hk : k = j
    · subst hk
      have hjt : k ∉ t := (List.nodup_cons.mp hnd).1
      rw [List.foldl_cons, foldl_repeatAx_shape_notmem s t k hjt]
      show (a.shape.set k (a.shape.getD k 0 * s.getD k 0)).getD k 0 = a.shape.getD k 0 * s.getD k 0
      rw [getD_set_self]
      by_cases hlt : k < a.shape.length
      · simp [hlt]
      · have : a.shape.length ≤ k := Nat.le_of_not_lt hlt
        rw [if_neg hlt, getD_out _ _ _ this]
        simp
    · have hjt : j ∈ t := by
        rcases List.mem_cons.mp hj with h | h
        · exact absurd h.symm hk
        · exact h
      rw [List.foldl_cons, ih (List.nodup_cons.mp hnd).2 hjt]
      show (a.shape.set k (a.shape.getD k 0 * s.getD k 0)).getD j 0 * s.getD j 0 = _
      rw [getD_set_ne _ _ _ _ _ hk]

theorem foldl_repeatAx_chunks_mem {α : Type} (s : List ℕ) (l : List ℕ) (j : ℕ)
    (hnd : l.Nodup) (hj : j ∈ l) : ∀ a : DArr α,
      (l.foldl (fun acc j => repeatAx j (s.getD j 0) acc) a).chunks.getD j [] =
        (a.chunks.getD j []).map (fun b => b * s.getD j 0) := by
  induction l with
  | nil => cases hj
  | cons k t ih =>
    intro a
    by_cases hk : k = j
    · subst hk
      have hjt : k ∉ t := (List.nodup_cons.mp hnd).1
      rw [List.foldl_cons, foldl_repeatAx_chunks_notmem s t k hjt]
      show (a.chunks.set k ((a.chunks.getD k []).map _)).getD k [] = _
      rw [getD_set_self]
      by_cases hlt : k < a.chunks.length
      · simp [hlt]
      · have : a.chunks.length ≤ k := Nat.le_of_not_lt hlt
        rw [if_neg hlt, getD_out _ _ _ this]
        simp
    · have hjt : j ∈ t := by
        rcases List.mem_cons.mp hj with h | h
        · exact absurd h.symm hk
        · exact h
      rw [List.foldl_cons, ih (List.nodup_cons.mp hnd).2 hjt]
      show ((a.chunks.set k _).getD j []).map _ = _
      rw [getD_set_ne _ _ _ _ _ hk]

theorem foldl_repeatAx_val {α : Type} (s : List ℕ) (l : List ℕ) (i : ℕ)
    (hne : ∀ j ∈ l, j ≠ i) (F : ℕ → α) :
    ∀ a : DArr α, (∀ idx, a.val idx = F (idx.getD i 0)) →
      ∀ idx, (l.foldl (fun acc j => repeatAx j (s.getD j 0) acc) a).val idx =
        F (idx.getD i 0) := by
  induction l with
  | nil => intro a ha idx; exact ha idx
  | cons k t ih =>
    intro a ha idx
    have hki : k ≠ i := hne k (List.mem_cons_self _ _)
    have hrest : ∀ j ∈ t, j ≠ i := fun j hj => hne j (List.mem_cons_of_mem _ hj)
    rw [List.foldl_cons]
    refine ih hrest (repeatAx k (s.getD k 0) a) ?_ idx
    intro idx2
    show a.val (idx2.set k (idx2.getD k 0 / s.getD k 0)) = F (idx2.getD i 0)
    rw [ha, getD_set_ne _ _ _ _ _ hki]

/-! ### Characterisation of `_get_freq_grid` -/

theorem get_freq_grid_eq_stack (s : List ℕ) (c : List (List ℕ)) (k : NumKind) :
    _get_freq_grid s c k =
      DArr.map (fun x => 2 * Real.pi * x)
        (stackArr 0 ((List.range s.length).map (gridField s c))) := rfl

theorem gridField_shape (s : List ℕ) (c : List (List ℕ)) (i : ℕ) :
    (gridField s c i).shape = s := by
  unfold gridField
  have hnd : ((List.range s.length).filter (fun j => decide (j ≠ i))).Nodup :=
    (List.nodup_range _).filter _
  refine list_eq_of_getD 0 _ s ?_ ?_
  · rw [foldl_repeatAx_shape_len]
    simp [sliceExpand]
  · intro j hj
    rw [foldl_repeatAx_shape_len] at hj
    have hjlen : j < s.length := by simpa [sliceExpand] using hj
    by_cases hji : j = i
    · subst hji
      have hnotmem : j ∉ (List.range s.length).filter (fun t => decide (t ≠ j)) := by
        intro hmem
        have := (List.mem_filter.mp hmem).2
        simp at this
      rw [foldl_repeatAx_shape_notmem _ _ _ hnotmem]
      show ((List.range s.length).map
        (fun t => if t = j then ([s.getD j 0] : List ℕ).getD 0 1 else 1)).getD j 0 = s.getD j 0
      rw [getD_map_range _ _ _ _ hjlen]
      simp
    · have hmem : j ∈ (List.range s.length).filter (fun t => decide (t ≠ i)) := by
        rw [List.mem_filter]
        exact ⟨List.mem_range.mpr hjlen, by simpa using hji⟩
      rw [foldl_repeatAx_shape_mem _ _ _ hnd hmem]
      show ((List.range s.length).map
        (fun t => if t = i then ([s.getD i 0] : List ℕ).getD 0 1 else 1)).getD j 0 * s.getD j 0 =
        s.getD j 0
      rw [getD_map_range _ _ _ _ hjlen]
      simp [hji]

theorem gridField_chunks (s : List ℕ) (c : List (List ℕ)) (i j : ℕ)
    (hj : j < s.length) :
    (gridField s c i).chunks.getD j [] =
      if j = i then c.getD i [] else [s.getD j 0] := by
  unfold gridField
  have hnd : ((List.range s.length).filter (fun t => decide (t ≠ i))).Nodup :=
    (List.nodup_range _).filter _
  by_cases hji : j = i
  · subst hji
    have hnotmem : j ∉ (List.range s.length).filter (fun t => decide (t ≠ j)) := by
      intro hmem
      have := (List.mem_filter.mp hmem).2
      simp at this
    rw [foldl_repeatAx_chunks_notmem _ _ _ hnotmem]
    show ((List.range s.length).map
      (fun t => if t = j then ([c.getD j []] : List (List ℕ)).getD 0 [] else [1])).getD j [] =
      if j = j then c.getD j [] else [s.getD j 0]
    rw [getD_map_range _ _ _ _ hj]
    simp
  · have hmem : j ∈ (List.range s.length).filter (fun t => decide (t ≠ i)) := by
      rw [List.mem_filter]
      exact ⟨List.mem_range.mpr hj, by simpa using hji⟩
    rw [foldl_repeatAx_chunks_mem _ _ _ hnd hmem]
    show (((List.range s.length).map
      (fun t => if t = i then ([c.getD i []] : List (List ℕ)).getD 0 [] else [1])).getD j []).map
        (fun b => b * s.getD j 0) =
      if j = i then c.getD i [] else [s.getD j 0]
    rw [getD_map_range _ _ _ _ hj]
    simp [hji]

theorem gridField_val (s : List ℕ) (c : List (List ℕ)) (i : ℕ) (idx : List ℕ) :
    (gridField s c i).val idx = ((fftfreqVal (s.getD i 0) (idx.getD i 0) : ℚ) : ℝ) := by
  unfold gridField
  refine foldl_repeatAx_val s _ i ?_ (fun t => ((fftfreqVal (s.getD i 0) t : ℚ) : ℝ)) _ ?_ idx
  · intro j hjmem
    have := (List.mem_filter.mp hjmem).2
    simpa using this
  · intro idx2
    rfl

theorem get_freq_grid_shape (s : List ℕ) (c : List (List ℕ)) (k : NumKind) :
    (_get_freq_grid s c k).shape = s.length :: s := by
  rw [get_freq_grid_eq_stack]
  show ((List.range s.length).map (gridField s c)).length ::
    (((List.range s.length).map (gridField s c)).headD ⟨[], [], fun _ => 0⟩).shape =
    s.length :: s
  congr 1
  · simp
  · cases hs : s.length with
    | zero =>
      have : s = [] := List.length_eq_zero.mp hs
      simp [this]
    | succ m =>
      rw [List.range_succ_eq_map]
      simp only [List.map_cons, List.headD_cons]
      exact gridField_shape s c 0

theorem get_freq_grid_val (s : List ℕ) (c : List (List ℕ)) (k : NumKind)
    (i : ℕ) (idx : List ℕ) (hi : i < s.length) :
    (_get_freq_grid s c k).val (i :: idx) =
      2 * Real.pi * ((fftfreqVal (s.getD i 0) (idx.getD i 0) : ℚ) : ℝ) := by
  rw [get_freq_grid_eq_stack]
  show 2 * Real.pi *
    ((((List.range s.length).map (gridField s c)).getD ((i :: idx).headD 0)
      ⟨[], [], fun _ => 0⟩).val (i :: idx).tail) = _
  have hhead : (i :: idx).headD 0 = i := rfl
  have htail : (i :: idx).tail = idx := rfl
  rw [hhead, htail, getD_map_range _ _ _ _ hi, gridField_val]

theorem get_freq_grid_chunks (s : List ℕ) (c : List (List ℕ)) (k : NumKind)
    (hlen : c.length = s.length)
    (hs : ∀ j, j < s.length → 0 < s.getD j 0)
    (hsum : ∀ j, j < s.length → (c.getD j []).sum = s.getD j 0)
    (hpos : ∀ j, j < s.length → ∀ x ∈ c.getD j [], 0 < x) :
    (_get_freq_grid s c k).chunks = List.replicate s.length 1 :: c := by
  rw [get_freq_grid_eq_stack]
  show List.replicate ((List.range s.length).map (gridField s c)).length 1 ::
    (List.range (((List.range s.length).map (gridField s c)).headD
      ⟨[], [], fun _ => 0⟩).shape.length).map
      (fun j => unifyParts (((List.range s.length).map (gridField s c)).map
        (fun f => f.chunks.getD j []))) =
    List.replicate s.length 1 :: c
  have hheadlen : (((List.range s.length).map (gridField s c)).headD
      ⟨[], [], fun _ => 0⟩).shape.length = s.length := by
    cases hs0 : s.length with
    | zero =>
      have : s = [] := List.length_eq_zero.mp hs0
      simp [this]
    | succ m =>
      rw [List.range_succ_eq_map]
      simp only [List.map_cons, List.headD_cons]
      rw [gridField_shape s c 0, hs0]
  congr 1
  · simp
  · rw [hheadlen]
    refine list_eq_of_getD [] _ c (by simp [hlen]) ?_
    intro j hj
    have hjlen : j < s.length := by simpa using hj
    rw [getD_map_range _ _ _ _ hjlen]
    have hmapmap : ((List.range s.length).map (gridField s c)).map
        (fun f => f.chunks.getD j []) =
        (List.range s.length).map (fun i => (gridField s c i).chunks.getD j []) := by
      rw [List.map_map]; rfl
    rw [hmapmap]
    have hchar : ∀ i < s.length, (gridField s c i).chunks.getD j [] =
        if j = i then c.getD j [] else [s.getD j 0] := by
      intro i hi
      rw [gridField_chunks s c i j hjlen]
      by_cases hji : j = i
      · subst hji; simp
      · simp [hji]
    have hq : ∀ q ∈ (List.range s.length).map
        (fun i => (gridField s c i).chunks.getD j []),
        q = c.getD j [] ∨ q = [s.getD j 0] := by
      intro q hqmem
      rcases List.mem_map.mp hqmem with ⟨i, hi, hiq⟩
      have hilt : i < s.length := List.mem_range.mp hi
      rw [← hiq, hchar i hilt]
      by_cases hji : j = i
      · left; simp [hji]
      · right; simp [hji]
    have hmem : c.getD j [] ∈ (List.range s.length).map
        (fun i => (gridField s c i).chunks.getD j []) := by
      refine List.mem_map.mpr ⟨j, List.mem_range.mpr hjlen, ?_⟩
      rw [hchar j hjlen]
      simp
    have hcne : c.getD j [] ≠ [] := by
      intro h0
      have h1 := hsum j hjlen
      have h2 := hs j hjlen
      rw [h0] at h1
      simp only [List.sum_nil] at h1
      omega
    exact unifyParts_eq (c.getD j []) (s.getD j 0) (hpos j hjlen) (hsum j hjlen) hcne _ hq hmem

/-! ### Evaluating the filters on the success path -/

theorem isNumber_of_isReal (v : PyVal) (h : v.isReal = true) : v.isNumber = true := by
  cases v <;> simp [PyVal.isReal, PyVal.isNumber] at h ⊢

theorem all_replicate_of {α : Type} (n : ℕ) (a : α) (p : α → Bool) (h : p a = true) :
    (List.replicate n a).all p = true := by
  induction n with
  | zero => simp
  | succ m ih => simp [List.replicate, h, ih]

theorem ifdtype_shape (x : DaskArray) (c : Prop) [Decidable c] (k : NumKind) :
    (if c then { x with dtype := k } else x).shape = x.shape := by
  split <;> rfl

theorem ifdtype_chunks (x : DaskArray) (c : Prop) [Decidable c] (k : NumKind) :
    (if c then { x with dtype := k } else x).chunks = x.chunks := by
  split <;> rfl

theorem ifdtype_val (x : DaskArray) (c : Prop) [Decidable c] (k : NumKind) :
    (if c then { x with dtype := k } else x).val = x.val := by
  split <;> rfl

theorem ifdtype_dtype (x : DaskArray) (c : Prop) [Decidable c] (k : NumKind) :
    (if c then { x with dtype := k } else x).dtype = if c then k else x.dtype := by
  split <;> rfl

theorem get_freq_grid_dtype_irrel (s : List ℕ) (c : List (List ℕ)) (k1 k2 : NumKind) :
    _get_freq_grid s c k1 = _get_freq_grid s c k2 := rfl

theorem getD_map_sq (l : List ℝ) (i : ℕ) :
    (l.map (fun x => x ^ 2)).getD i 0 = (l.getD i 0) ^ 2 :=
  getD_map l _ i 0 0 (by norm_num)

theorem getD_replicate_sq (n i : ℕ) (a : ℝ) :
    (List.replicate n (a ^ 2)).getD i 0 = ((List.replicate n a).getD i 0) ^ 2 := by
  induction n generalizing i with
  | zero => simp [List.getD]
  | succ m ih =>
    cases i with
    | zero => simp [List.replicate]
    | succ j =>
      simp only [List.replicate, List.getD_cons_succ]
      exact ih j

theorem DaskArray.ext_fields (a b : DaskArray) (h1 : a.shape = b.shape)
    (h2 : a.chunks = b.chunks) (h3 : a.dtype = b.dtype) (h4 : a.val = b.val) : a = b := by
  cases a; cases b
  simp only at h1 h2 h3 h4
  rw [h1, h2, h3, h4]

/-- Success path of `fourier_gaussian`: on a valid `sigma` and `n = -1`
the call returns the promoted input multiplied by the Gaussian kernel,
with the raw (unify-expressed) chunk layout of the elementwise
multiply. -/
theorem fourier_gaussian_ok (x : DaskArray) (sigma : PyArg)
    (hv : sigma.valid x.shape.length = true) :
    fourier_gaussian x sigma (-1) = Except.ok
      { shape := x.shape,
        chunks := (List.range x.shape.length).map (fun j =>
          unifyParts [x.chunks.getD j [],
            (_get_freq_grid x.shape x.chunks NumKind.float).chunks.tail.getD j []]),
        dtype := if x.dtype = NumKind.int then NumKind.float else x.dtype,
        val := fun idx => x.val idx *
          (((Real.exp (-(∑ i ∈ Finset.range x.shape.length,
            ((sigma.toVec x.shape.length).getD i 0) ^ 2 *
            ((_get_freq_grid x.shape x.chunks NumKind.float).val (i :: idx)) ^ 2) / 2)) : ℝ) : ℂ) } := by
  unfold fourier_gaussian
  simp only [ifdtype_shape, ifdtype_chunks, ifdtype_val, ifdtype_dtype]
  cases sigma with
  | val v =>
    have hreal : v.isReal = true := by simpa [PyArg.valid] using hv
    have hnum : v.isNumber = true := isNumber_of_isReal v hreal
    simp only [hnum, if_true]
    have hlen : (List.replicate
        (if x.dtype = NumKind.int then { x with dtype := NumKind.float } else x).shape.length
        v).length =
        (if x.dtype = NumKind.int then { x with dtype := NumKind.float } else x).shape.length := by
      simp
    simp only [ifdtype_shape] at hlen
    simp only [hlen, ifdtype_shape, ne_eq, not_true_eq_false, if_false,
      all_replicate_of _ v PyVal.isReal hreal, not_false_eq_true, ite_not]
    rw [get_freq_grid_dtype_irrel x.shape x.chunks
      ((if x.dtype = NumKind.int then NumKind.float else x.dtype).realKind) NumKind.float]
    simp only [elemMulR, DArr.map, tensordot1, ifdtype_shape, ifdtype_chunks, ifdtype_val,
      ifdtype_dtype, List.map_replicate, List.length_map, List.length_replicate,
      getD_map_sq, getD_replicate_sq, PyArg.toVec]
  | seq xs =>
    have hxslen : xs.length = x.shape.length := by
      have := hv
      simp only [PyArg.valid, Bool.and_eq_true, decide_eq_true_eq] at this
      exact this.1
    have hxsreal : xs.all PyVal.isReal = true := by
      have := hv
      simp only [PyArg.valid, Bool.and_eq_true, decide_eq_true_eq] at this
      exact this.2
    simp only [ifdtype_shape, hxslen, ne_eq, not_true_eq_false, if_false, hxsreal,
      not_false_eq_true, ite_not]
    rw [get_freq_grid_dtype_irrel x.shape x.chunks
      ((if x.dtype = NumKind.int then NumKind.float else x.dtype).realKind) NumKind.float]
    simp only [elemMulR, DArr.map, tensordot1, ifdtype_shape, ifdtype_chunks, ifdtype_val,
      ifdtype_dtype, List.length_map, hxslen, getD_map_sq, PyArg.toVec]

theorem ifcplx_dtype (k : NumKind) :
    (if k ≠ NumKind.cplx then NumKind.cplx else k) = NumKind.cplx := by
  by_cases h : k = NumKind.cplx <;> simp [h]

theorem ifdtype_shape2 (x : DaskArray) (c : Prop) [Decidable c] (k : NumKind) :
    (if c then x else { x with dtype := k }).shape = x.shape := by
  split <;> rfl

theorem ifdtype_chunks2 (x : DaskArray) (c : Prop) [Decidable c] (k : NumKind) :
    (if c then x else { x with dtype := k }).chunks = x.chunks := by
  split <;> rfl

theorem ifdtype_val2 (x : DaskArray) (c : Prop) [Decidable c] (k : NumKind) :
    (if c then x else { x with dtype := k }).val = x.val := by
  split <;> rfl

theorem ifdtype_dtype2 (x : DaskArray) (c : Prop) [Decidable c] (k : NumKind) :
    (if c then x else { x with dtype := k }).dtype = if c then x.dtype else k := by
  split <;> rfl

theorem ifcplx_dtype2 (k : NumKind) :
    (if k = NumKind.cplx then k else NumKind.cplx) = NumKind.cplx := by
  by_cases h : k = NumKind.cplx <;> simp [h]

/-- Success path of `fourier_shift`: on a valid `shift` and `n = -1`
the call returns the complex-promoted input multiplied by the phase
factor `exp(-i Σ shift[axis]·grid[axis])`. -/
theorem fourier_shift_ok (x : DaskArray) (shift : PyArg)
    (hv : shift.valid x.shape.length = true) :
    fourier_shift x shift (-1) = Except.ok
      { shape := x.shape,
        chunks := (List.range x.shape.length).map (fun j =>
          unifyParts [x.chunks.getD j [],
            (_get_freq_grid x.shape x.chunks NumKind.float).chunks.tail.getD j []]),
        dtype := NumKind.cplx,
        val := fun idx => x.val idx *
          Complex.exp (-(Complex.I * (((∑ i ∈ Finset.range x.shape.length,
            ((shift.toVec x.shape.length).getD i 0) *
            ((_get_freq_grid x.shape x.chunks NumKind.float).val (i :: idx))) : ℝ) : ℂ))) } := by
  unfold fourier_shift
  simp only [ifdtype_shape, ifdtype_chunks, ifdtype_val, ifdtype_dtype]
  cases shift with
  | val v =>
    have hreal : v.isReal = true := by simpa [PyArg.valid] using hv
    have hnum : v.isNumber = true := isNumber_of_isReal v hreal
    simp only [hnum, if_true]
    have hlen : (List.replicate
        (if x.dtype ≠ NumKind.cplx then { x with dtype := NumKind.cplx } else x).shape.length
        v).length =
        (if x.dtype ≠ NumKind.cplx then { x with dtype := NumKind.cplx } else x).shape.length := by
      simp
    simp only [ifdtype_shape] at hlen
    simp only [hlen, ifdtype_shape, ne_eq, not_true_eq_false, if_false,
      all_replicate_of _ v PyVal.isReal hreal, not_false_eq_true, ite_not]
    rw [get_freq_grid_dtype_irrel x.shape x.chunks
      (if x.dtype = NumKind.cplx then x.dtype else NumKind.cplx) NumKind.float]
    simp only [elemMulC, DArr.map, tensordot1, ifdtype_shape2, ifdtype_chunks2, ifdtype_val2,
      ifdtype_dtype2, List.map_replicate, List.length_map, List.length_replicate,
      PyArg.toVec, ifcplx_dtype2]
  | seq xs =>
    have hxslen : xs.length = x.shape.length := by
      have := hv
      simp only [PyArg.valid, Bool.and_eq_true, decide_eq_true_eq] at this
      exact this.1
    have hxsreal : xs.all PyVal.isReal = true := by
      have := hv
      simp only [PyArg.valid, Bool.and_eq_true, decide_eq_true_eq] at this
      exact this.2
    simp only [ifdtype_shape, hxslen, ne_eq, not_true_eq_false, if_false, hxsreal,
      not_false_eq_true, ite_not]
    rw [get_freq_grid_dtype_irrel x.shape x.chunks
      (if x.dtype = NumKind.cplx then x.dtype else NumKind.cplx) NumKind.float]
    simp only [elemMulC, DArr.map, tensordot1, ifdtype_shape2, ifdtype_chunks2, ifdtype_val2,
      ifdtype_dtype2, List.length_map, hxslen, PyArg.toVec, ifcplx_dtype2]

/-- On a well-formed input array the elementwise multiply's unified
chunks collapse back to the input's own partition (the kernel is
partitioned exactly like the input). -/
theorem kernel_chunks_eq (x : DaskArray)
    (hlen : x.chunks.length = x.shape.length)
    (hs : ∀ j, j < x.shape.length → 0 < x.shape.getD j 0)
    (hsum : ∀ j, j < x.shape.length → (x.chunks.getD j []).sum = x.shape.getD j 0)
    (hpos : ∀ j, j < x.shape.length → ∀ b ∈ x.chunks.getD j [], 0 < b) :
    (List.range x.shape.length).map (fun j =>
      unifyParts [x.chunks.getD j [],
        (_get_freq_grid x.shape x.chunks NumKind.float).chunks.tail.getD j []]) = x.chunks := by
  rw [get_freq_grid_chunks x.shape x.chunks NumKind.float hlen hs hsum hpos]
  simp only [List.tail_cons, unifyParts_pair_self]
  refine list_eq_of_getD [] _ x.chunks (by simp [hlen]) ?_
  intro j hj
  have hjlen : j < x.shape.length := by simpa using hj
  rw [getD_map_range _ _ _ _ hjlen]

/-! ### Claim theorems -/

/-- C2: for every chunked input array (well-formed shape/partition) and
valid `sigma` (a real scalar replicated to rank, or a per-axis real
sequence of length rank) with `n = -1`, `fourier_gaussian` returns the
(integer-to-real promoted) input multiplied elementwise by the kernel
`exp(-Σ_axis sigma[axis]² · grid[axis]² / 2)`, where the grid is the
frequency grid built at the input's real-component precision (which is
the float precision `NumKind.float` for every input dtype); the output
has the same logical shape and partition as the input. -/
theorem fourier_gaussian_spec (x : DaskArray) (sigma : PyArg)
    (hv : sigma.valid x.shape.length = true)
    (hlen : x.chunks.length = x.shape.length)
    (hs : ∀ j, j < x.shape.length → 0 < x.shape.getD j 0)
    (hsum : ∀ j, j < x.shape.length → (x.chunks.getD j []).sum = x.shape.getD j 0)
    (hpos : ∀ j, j < x.shape.length → ∀ b ∈ x.chunks.getD j [], 0 < b) :
    fourier_gaussian x sigma (-1) = Except.ok
      { shape := x.shape,
        chunks := x.chunks,
        dtype := if x.dtype = NumKind.int then NumKind.float else x.dtype,
        val := fun idx => x.val idx *
          (((Real.exp (-(∑ i ∈ Finset.range x.shape.length,
            ((sigma.toVec x.shape.length).getD i 0) ^ 2 *
            ((_get_freq_grid x.shape x.chunks NumKind.float).val (i :: idx)) ^ 2) / 2)) : ℝ) : ℂ) } := by
  rw [fourier_gaussian_ok x sigma hv, kernel_chunks_eq x hlen hs hsum hpos]

theorem fourier_gaussian_spec_witness :
    (PyArg.val (PyVal.real 1)).valid sampleArr.shape.length = true ∧
    ∃ out, fourier_gaussian sampleArr (PyArg.val (PyVal.real 1)) (-1) = Except.ok out ∧
      out.shape = sampleArr.shape ∧ out.chunks = sampleArr.chunks ∧
      out.dtype = NumKind.cplx :=
  ⟨by decide,
   ⟨_, fourier_gaussian_spec sampleArr (PyArg.val (PyVal.real 1))
      (by decide) (by decide) (by decide) (by decide) (by decide), rfl, rfl, rfl⟩⟩

/-- C3: for every chunked input array (well-formed shape/partition) and
valid `shift` with `n = -1`, `fourier_shift` returns the
complex-promoted input multiplied elementwise by the unit-magnitude
phase factor `exp(-i · Σ_axis shift[axis] · grid[axis])`, with exactly
that sign (minus i) in the exponent; the phase factor has absolute
value 1 at every point. -/
theorem fourier_shift_spec (x : DaskArray) (shift : PyArg)
    (hv : shift.valid x.shape.length = true)
    (hlen : x.chunks.length = x.shape.length)
    (hs : ∀ j, j < x.shape.length → 0 < x.shape.getD j 0)
    (hsum : ∀ j, j < x.shape.length → (x.chunks.getD j []).sum = x.shape.getD j 0)
    (hpos : ∀ j, j < x.shape.length → ∀ b ∈ x.chunks.getD j [], 0 < b) :
    fourier_shift x shift (-1) = Except.ok
      { shape := x.shape,
        chunks := x.chunks,
        dtype := NumKind.cplx,
        val := fun idx => x.val idx *
          Complex.exp (-(Complex.I * (((∑ i ∈ Finset.range x.shape.length,
            ((shift.toVec x.shape.length).getD i 0) *
            ((_get_freq_grid x.shape x.chunks NumKind.float).val (i :: idx))) : ℝ) : ℂ))) } ∧
    ∀ idx : List ℕ,
      Complex.abs (Complex.exp (-(Complex.I * (((∑ i ∈ Finset.range x.shape.length,
        ((shift.toVec x.shape.length).getD i 0) *
        ((_get_freq_grid x.shape x.chunks NumKind.float).val (i :: idx))) : ℝ) : ℂ)))) = 1 := by
  constructor
  · rw [fourier_shift_ok x shift hv, kernel_chunks_eq x hlen hs hsum hpos]
  · intro idx
    rw [Complex.abs_exp]
    simp

theorem fourier_shift_spec_witness :
    (PyArg.val (PyVal.real 1)).valid sampleArr.shape.length = true ∧
    ∃ out, fourier_shift sampleArr (PyArg.val (PyVal.real 1)) (-1) = Except.ok out ∧
      out.shape = sampleArr.shape ∧ out.chunks = sampleArr.chunks ∧
      out.dtype = NumKind.cplx :=
  ⟨by decide,
   ⟨_, (fourier_shift_spec sampleArr (PyArg.val (PyVal.real 1))
      (by decide) (by decide) (by decide) (by decide) (by decide)).1, rfl, rfl, rfl⟩⟩

/-- C1: for every shape `s` of positive extents and chunk partition `c`
with `len(c) = len(s)` (blocks positive, summing to the extents) and
any floating dtype, `_get_freq_grid(s, c, dtype)` returns a stacked
grid whose leading axis has size `rank = len(s)`, whose trailing shape
and per-axis chunk partition are identical, axis by axis, to `(s, c)`,
and whose entry at stacked index `(i, idx)` equals `2π` times the
wrap-around fftfreq value for length `n = s[i]` at position `idx[i]`,
independent of all coordinates other than `idx[i]`. -/
theorem freq_grid_spec (s : List ℕ) (c : List (List ℕ)) (k : NumKind)
    (hlen : c.length = s.length)
    (hs : ∀ j, j < s.length → 0 < s.getD j 0)
    (hsum : ∀ j, j < s.length → (c.getD j []).sum = s.getD j 0)
    (hpos : ∀ j, j < s.length → ∀ b ∈ c.getD j [], 0 < b) :
    (_get_freq_grid s c k).shape = s.length :: s ∧
    (_get_freq_grid s c k).chunks = List.replicate s.length 1 :: c ∧
    (∀ i idx, i < s.length → (_get_freq_grid s c k).val (i :: idx) =
      2 * Real.pi * ((fftfreqVal (s.getD i 0) (idx.getD i 0) : ℚ) : ℝ)) ∧
    (∀ i idx idx2, i < s.length → idx.getD i 0 = idx2.getD i 0 →
      (_get_freq_grid s c k).val (i :: idx) = (_get_freq_grid s c k).val (i :: idx2)) := by
  refine ⟨get_freq_grid_shape s c k, get_freq_grid_chunks s c k hlen hs hsum hpos,
    fun i idx hi => get_freq_grid_val s c k i idx hi, ?_⟩
  intro i idx idx2 hi heq
  rw [get_freq_grid_val s c k i idx hi, get_freq_grid_val s c k i idx2 hi, heq]

theorem freq_grid_spec_witness :
    ([[1, 1]] : List (List ℕ)).length = ([2] : List ℕ).length ∧
    (_get_freq_grid [2] [[1, 1]] NumKind.float).shape = [1, 2] ∧
    (_get_freq_grid [2] [[1, 1]] NumKind.float).chunks = [[1], [1, 1]] ∧
    (_get_freq_grid [2] [[1, 1]] NumKind.float).val (0 :: [1]) =
      2 * Real.pi * ((fftfreqVal 2 1 : ℚ) : ℝ) := by
  obtain ⟨h1, h2, h3, h4⟩ := freq_grid_spec [2] [[1, 1]] NumKind.float
    (by decide) (by decide) (by decide) (by decide)
  exact ⟨by decide, h1, h2, h3 0 [1] (by decide)⟩

/-- The grid's valuation does not depend on the chunk partition (or on
the dtype argument): chunking only reorganises the lazy layout. -/
theorem get_freq_grid_val_eq (s : List ℕ) (c c2 : List (List ℕ)) (k k2 : NumKind) :
    (_get_freq_grid s c k).val = (_get_freq_grid s c2 k2).val := by
  funext idx
  rw [get_freq_grid_eq_stack, get_freq_grid_eq_stack]
  show 2 * Real.pi * ((((List.range s.length).map (gridField s c)).getD (idx.headD 0)
      ⟨[], [], fun _ => 0⟩).val idx.tail) =
    2 * Real.pi * ((((List.range s.length).map (gridField s c2)).getD (idx.headD 0)
      ⟨[], [], fun _ => 0⟩).val idx.tail)
  by_cases h : idx.headD 0 < s.length
  · rw [getD_map_range _ _ _ _ h, getD_map_range _ _ _ _ h, gridField_val, gridField_val]
  · have hle : s.length ≤ idx.headD 0 := Nat.le_of_not_lt h
    rw [getD_out _ _ _ (by simpa using hle), getD_out _ _ _ (by simpa using hle)]

/-! ### Error paths -/

theorem all_replicate_false {α : Type} (n : ℕ) (a : α) (p : α → Bool)
    (h : p a = false) (hn : 1 ≤ n) : (List.replicate n a).all p = false := by
  cases n with
  | zero => omega
  | succ m => simp [List.replicate, h]

theorem fourier_gaussian_n_error (x : DaskArray) (sigma : PyArg) (n : ℤ)
    (hv : sigma.valid x.shape.length = true) (hn : n ≠ -1) :
    fourier_gaussian x sigma n = Except.error PyErr.notImplementedError := by
  unfold fourier_gaussian
  cases sigma with
  | val v =>
    have hreal : v.isReal = true := by simpa [PyArg.valid] using hv
    have hnum := isNumber_of_isReal v hreal
    simp only [hnum, if_true]
    rw [if_neg (by simp)]
    rw [if_neg (by simp [all_replicate_of _ v PyVal.isReal hreal])]
    rw [if_pos hn]
  | seq xs =>
    have hxslen : xs.length = x.shape.length := by
      have := hv
      simp only [PyArg.valid, Bool.and_eq_true, decide_eq_true_eq] at this
      exact this.1
    have hxsreal : xs.all PyVal.isReal = true := by
      have := hv
      simp only [PyArg.valid, Bool.and_eq_true, decide_eq_true_eq] at this
      exact this.2
    simp only [ifdtype_shape]
    rw [if_neg (by simp [hxslen])]
    rw [if_neg (by simp [hxsreal])]
    rw [if_pos hn]

theorem fourier_shift_n_error (x : DaskArray) (shift : PyArg) (n : ℤ)
    (hv : shift.valid x.shape.length = true) (hn : n ≠ -1) :
    fourier_shift x shift n = Except.error PyErr.notImplementedError := by
  unfold fourier_shift
  cases shift with
  | val v =>
    have hreal : v.isReal = true := by simpa [PyArg.valid] using hv
    have hnum := isNumber_of_isReal v hreal
    simp only [hnum, if_true]
    rw [if_neg (by simp)]
    rw [if_neg (by simp [all_replicate_of _ v PyVal.isReal hreal])]
    rw [if_pos hn]
  | seq xs =>
    have hxslen : xs.length = x.shape.length := by
      have := hv
      simp only [PyArg.valid, Bool.and_eq_true, decide_eq_true_eq] at this
      exact this.1
    have hxsreal : xs.all PyVal.isReal = true := by
      have := hv
      simp only [PyArg.valid, Bool.and_eq_true, decide_eq_true_eq] at this
      exact this.2
    simp only [ifdtype_shape]
    rw [if_neg (by simp [hxslen])]
    rw [if_neg (by simp [hxsreal])]
    rw [if_pos hn]

theorem fourier_gaussian_len_error (x : DaskArray) (xs : List PyVal) (n : ℤ)
    (hxs : xs.length ≠ x.shape.length) :
    fourier_gaussian x (PyArg.seq xs) n = Except.error PyErr.runtimeError := by
  unfold fourier_gaussian
  simp only [ifdtype_shape]
  rw [if_pos (by simpa [ifdtype_shape] using hxs)]

theorem fourier_shift_len_error (x : DaskArray) (xs : List PyVal) (n : ℤ)
    (hxs : xs.length ≠ x.shape.length) :
    fourier_shift x (PyArg.seq xs) n = Except.error PyErr.runtimeError := by
  unfold fourier_shift
  simp only [ifdtype_shape]
  rw [if_pos (by simpa [ifdtype_shape] using hxs)]

theorem fourier_gaussian_cplx_scalar (x : DaskArray) (z : ℂ) (n : ℤ)
    (hrank : 1 ≤ x.shape.length) :
    fourier_gaussian x (PyArg.val (PyVal.cplx z)) n = Except.error PyErr.typeError := by
  unfold fourier_gaussian
  simp only [PyVal.isNumber, if_true]
  rw [if_neg (by simp)]
  rw [if_pos ?_]
  simp only [ifdtype_shape]
  rw [all_replicate_false _ _ _ (by simp [PyVal.isReal]) hrank]
  simp

theorem fourier_shift_cplx_scalar (x : DaskArray) (z : ℂ) (n : ℤ)
    (hrank : 1 ≤ x.shape.length) :
    fourier_shift x (PyArg.val (PyVal.cplx z)) n = Except.error PyErr.typeError := by
  unfold fourier_shift
  simp only [PyVal.isNumber, if_true]
  rw [if_neg (by simp)]
  rw [if_pos ?_]
  simp only [ifdtype_shape]
  rw [all_replicate_false _ _ _ (by simp [PyVal.isReal]) hrank]
  simp

/-- C4: for every well-formed input array of any rank and chunk
partition, `fourier_gaussian(x, 0)` reproduces `x` exactly (the kernel
is exactly 1 everywhere; the dtype tag is promoted only for integral
input) and `fourier_shift(x, 0)` reproduces `x` exactly modulo the
forced promotion to complex; the same holds for the all-zero per-axis
vector of length rank. -/
theorem zero_arg_identity (x : DaskArray)
    (hlen : x.chunks.length = x.shape.length)
    (hs : ∀ j, j < x.shape.length → 0 < x.shape.getD j 0)
    (hsum : ∀ j, j < x.shape.length → (x.chunks.getD j []).sum = x.shape.getD j 0)
    (hpos : ∀ j, j < x.shape.length → ∀ b ∈ x.chunks.getD j [], 0 < b) :
    fourier_gaussian x (PyArg.val (PyVal.real 0)) (-1) =
      Except.ok { x with dtype := if x.dtype = NumKind.int then NumKind.float else x.dtype } ∧
    fourier_gaussian x (PyArg.seq (List.replicate x.shape.length (PyVal.real 0))) (-1) =
      Except.ok { x with dtype := if x.dtype = NumKind.int then NumKind.float else x.dtype } ∧
    fourier_shift x (PyArg.val (PyVal.real 0)) (-1) =
      Except.ok { x with dtype := NumKind.cplx } ∧
    fourier_shift x (PyArg.seq (List.replicate x.shape.length (PyVal.real 0))) (-1) =
      Except.ok { x with dtype := NumKind.cplx } := by
  have hv1 : (PyArg.val (PyVal.real 0)).valid x.shape.length = true := rfl
  have hv2 : (PyArg.seq (List.replicate x.shape.length (PyVal.real 0))).valid
      x.shape.length = true := by
    simp [PyArg.valid, all_replicate_of _ (PyVal.real 0) PyVal.isReal rfl]
  refine ⟨?_, ?_, ?_, ?_⟩
  · rw [fourier_gaussian_spec x _ hv1 hlen hs hsum hpos]
    refine congrArg Except.ok (DaskArray.ext_fields _ _ rfl rfl rfl ?_)
    funext idx
    simp [PyArg.toVec, PyVal.toReal, getD_replicate_self, Real.exp_zero]
  · rw [fourier_gaussian_spec x _ hv2 hlen hs hsum hpos]
    refine congrArg Except.ok (DaskArray.ext_fields _ _ rfl rfl rfl ?_)
    funext idx
    simp [PyArg.toVec, PyVal.toReal, List.map_replicate, getD_replicate_self, Real.exp_zero]
  · rw [(fourier_shift_spec x _ hv1 hlen hs hsum hpos).1]
    refine congrArg Except.ok (DaskArray.ext_fields _ _ rfl rfl rfl ?_)
    funext idx
    simp [PyArg.toVec, PyVal.toReal, getD_replicate_self, Complex.exp_zero]
  · rw [(fourier_shift_spec x _ hv2 hlen hs hsum hpos).1]
    refine congrArg Except.ok (DaskArray.ext_fields _ _ rfl rfl rfl ?_)
    funext idx
    simp [PyArg.toVec, PyVal.toReal, List.map_replicate, getD_replicate_self, Complex.exp_zero]

theorem zero_arg_identity_witness :
    ([[2]] : List (List ℕ)).length = ([2] : List ℕ).length ∧
    fourier_gaussian sampleArr (PyArg.val (PyVal.real 0)) (-1) = Except.ok sampleArr ∧
    fourier_shift sampleArr (PyArg.val (PyVal.real 0)) (-1) = Except.ok sampleArr := by
  obtain ⟨h1, h2, h3, h4⟩ := zero_arg_identity sampleArr
    (by decide) (by decide) (by decide) (by decide)
  exact ⟨by decide, h1, h3⟩

/-- C6: for every input array (integer, real or complex element type)
and every valid `shift` with `n = -1`, the result of `fourier_shift` is
complex-typed. -/
theorem shift_output_complex (x : DaskArray) (shift : PyArg)
    (hv : shift.valid x.shape.length = true) :
    ∃ out, fourier_shift x shift (-1) = Except.ok out ∧ out.dtype = NumKind.cplx :=
  ⟨_, fourier_shift_ok x shift hv, rfl⟩

theorem shift_output_complex_witness :
    (PyArg.val (PyVal.real 2)).valid
      (DaskArray.mk [2] [[2]] NumKind.int (fun _ => 3)).shape.length = true ∧
    ∃ out, fourier_shift (DaskArray.mk [2] [[2]] NumKind.int (fun _ => 3))
      (PyArg.val (PyVal.real 2)) (-1) = Except.ok out ∧ out.dtype = NumKind.cplx :=
  ⟨by decide,
   shift_output_complex (DaskArray.mk [2] [[2]] NumKind.int (fun _ => 3))
     (PyArg.val (PyVal.real 2)) (by decide)⟩

/-- C8: for every otherwise-valid `sigma`/`shift` and every `n ≠ -1`,
both filters return the unsupported-mode error
(`NotImplementedError`) synchronously, with no output produced. -/
theorem n_mode_error (x : DaskArray) (sigma : PyArg) (n : ℤ)
    (hv : sigma.valid x.shape.length = true) (hn : n ≠ -1) :
    fourier_gaussian x sigma n = Except.error PyErr.notImplementedError ∧
    fourier_shift x sigma n = Except.error PyErr.notImplementedError :=
  ⟨fourier_gaussian_n_error x sigma n hv hn, fourier_shift_n_error x sigma n hv hn⟩

theorem n_mode_error_witness :
    (PyArg.val (PyVal.real 0)).valid sampleArr.shape.length = true ∧
    (0 : ℤ) ≠ -1 ∧
    fourier_gaussian sampleArr (PyArg.val (PyVal.real 0)) 0 =
      Except.error PyErr.notImplementedError ∧
    fourier_shift sampleArr (PyArg.val (PyVal.real 0)) 0 =
      Except.error PyErr.notImplementedError := by
  obtain ⟨h1, h2⟩ := n_mode_error sampleArr (PyArg.val (PyVal.real 0)) 0 (by decide) (by decide)
  exact ⟨by decide, by decide, h1, h2⟩

/-- C9: for every input array and every sequence whose length differs
from the input's rank, both filters fail with the length/rank error
(`RuntimeError`), for every `n`, with no output produced. -/
theorem length_mismatch_error (x : DaskArray) (xs : List PyVal) (n : ℤ)
    (h : xs.length ≠ x.shape.length) :
    fourier_gaussian x (PyArg.seq xs) n = Except.error PyErr.runtimeError ∧
    fourier_shift x (PyArg.seq xs) n = Except.error PyErr.runtimeError :=
  ⟨fourier_gaussian_len_error x xs n h, fourier_shift_len_error x xs n h⟩

theorem length_mismatch_error_witness :
    ([PyVal.real 0, PyVal.real 0] : List PyVal).length ≠ sampleArr.shape.length ∧
    fourier_gaussian sampleArr (PyArg.seq [PyVal.real 0, PyVal.real 0]) 0 =
      Except.error PyErr.runtimeError ∧
    fourier_shift sampleArr (PyArg.seq [PyVal.real 0, PyVal.real 0]) 0 =
      Except.error PyErr.runtimeError := by
  obtain ⟨h1, h2⟩ := length_mismatch_error sampleArr [PyVal.real 0, PyVal.real 0] 0 (by decide)
  exact ⟨by decide, h1, h2⟩

/-- C10, counterexample to the claim as stated: on a zero-dimensional
input the scalar complex `sigma`/`shift` is replicated to the empty
list, the elementwise realness check passes vacuously, and with
`n = 0` both filters raise `NotImplementedError`, not `TypeError`. -/
theorem complex_scalar_rank0_counterexample :
    fourier_gaussian sampleArr0 (PyArg.val (PyVal.cplx 0)) 0 =
      Except.error PyErr.notImplementedError ∧
    fourier_shift sampleArr0 (PyArg.val (PyVal.cplx 0)) 0 =
      Except.error PyErr.notImplementedError ∧
    PyErr.notImplementedError ≠ PyErr.typeError :=
  ⟨rfl, rfl, by decide⟩

/-- C10, amended: for every input array of rank at least 1, every
complex-valued scalar passed as `sigma`/`shift`, and every `n`
(including `n ≠ -1`), the call raises `TypeError`: the complex scalar
is a `Number` so it is replicated per axis, and the per-element
realness check rejects it before the `n` check runs. -/
theorem complex_scalar_type_error (x : DaskArray) (z : ℂ) (n : ℤ)
    (hrank : 1 ≤ x.shape.length) :
    fourier_gaussian x (PyArg.val (PyVal.cplx z)) n = Except.error PyErr.typeError ∧
    fourier_shift x (PyArg.val (PyVal.cplx z)) n = Except.error PyErr.typeError :=
  ⟨fourier_gaussian_cplx_scalar x z n hrank, fourier_shift_cplx_scalar x z n hrank⟩

theorem complex_scalar_type_error_witness :
    1 ≤ sampleArr.shape.length ∧
    fourier_gaussian sampleArr (PyArg.val (PyVal.cplx 0)) 0 =
      Except.error PyErr.typeError ∧
    fourier_shift sampleArr (PyArg.val (PyVal.cplx 0)) 0 =
      Except.error PyErr.typeError := by
  obtain ⟨h1, h2⟩ := complex_scalar_type_error sampleArr 0 0 (by decide)
  exact ⟨by decide, h1, h2⟩

theorem fourier_gaussian_seq_type_error (x : DaskArray) (xs : List PyVal) (n : ℤ)
    (hlen2 : xs.length = x.shape.length) (hall : xs.all PyVal.isReal = false) :
    fourier_gaussian x (PyArg.seq xs) n = Except.error PyErr.typeError := by
  unfold fourier_gaussian
  simp only [ifdtype_shape]
  rw [if_neg (by simp [hlen2, ifdtype_shape])]
  rw [if_pos (by simp [hall])]

theorem fourier_shift_seq_type_error (x : DaskArray) (xs : List PyVal) (n : ℤ)
    (hlen2 : xs.length = x.shape.length) (hall : xs.all PyVal.isReal = false) :
    fourier_shift x (PyArg.seq xs) n = Except.error PyErr.typeError := by
  unfold fourier_shift
  simp only [ifdtype_shape]
  rw [if_neg (by simp [hlen2, ifdtype_shape])]
  rw [if_pos (by simp [hall])]

theorem isReal_neg (v : PyVal) : (PyVal.neg v).isReal = v.isReal := by
  cases v <;> rfl

theorem toReal_neg (v : PyVal) : (PyVal.neg v).toReal = -(v.toReal) := by
  cases v with
  | real x => rfl
  | cplx z => simp [PyVal.neg, PyVal.toReal]
  | obj => simp [PyVal.neg, PyVal.toReal]

theorem all_isReal_map_neg (xs : List PyVal) :
    (xs.map PyVal.neg).all PyVal.isReal = xs.all PyVal.isReal := by
  induction xs with
  | nil => rfl
  | cons v t ih => simp [isReal_neg, ih]

theorem toVec_map_neg_getD (xs : List PyVal) (i : ℕ) :
    ((xs.map PyVal.neg).map PyVal.toReal).getD i 0 =
      -((xs.map PyVal.toReal).getD i 0) := by
  have h1 : (xs.map PyVal.neg).map PyVal.toReal =
      (xs.map PyVal.toReal).map (fun t => -t) := by
    rw [List.map_map, List.map_map]
    refine List.map_congr_left ?_
    intro v _
    exact toReal_neg v
  rw [h1, getD_map _ _ _ 0 0 (by norm_num)]

/-- C7: for every input array, every real scalar `σ` (and likewise
every per-axis vector and its elementwise negation) and every `n`,
`fourier_gaussian` is invariant under negating the argument: only the
square of sigma enters the kernel. -/
theorem gaussian_sign_invariance (x : DaskArray) (σ : ℝ) (n : ℤ) :
    fourier_gaussian x (PyArg.val (PyVal.real σ)) n =
      fourier_gaussian x (PyArg.val (PyVal.real (-σ))) n ∧
    ∀ xs : List PyVal, fourier_gaussian x (PyArg.seq xs) n =
      fourier_gaussian x (PyArg.seq (xs.map PyVal.neg)) n := by
  constructor
  · by_cases hn : n = -1
    · subst hn
      rw [fourier_gaussian_ok x (PyArg.val (PyVal.real σ)) rfl,
        fourier_gaussian_ok x (PyArg.val (PyVal.real (-σ))) rfl]
      refine congrArg Except.ok (DaskArray.ext_fields _ _ rfl rfl rfl ?_)
      funext idx
      have key : ∀ i : ℕ, ((List.replicate x.shape.length (-σ)).getD i 0) ^ 2 =
          ((List.replicate x.shape.length σ).getD i 0) ^ 2 := by
        intro i
        rw [show List.replicate x.shape.length (-σ) =
          (List.replicate x.shape.length σ).map (fun t => -t) from
            (List.map_replicate).symm]
        rw [getD_map _ _ _ 0 0 (by norm_num)]
        ring
      simp only [PyArg.toVec, PyVal.toReal, key]
    · rw [fourier_gaussian_n_error x (PyArg.val (PyVal.real σ)) n rfl hn,
        fourier_gaussian_n_error x (PyArg.val (PyVal.real (-σ))) n rfl hn]
  · intro xs
    by_cases hlen2 : xs.length = x.shape.length
    · by_cases hall : xs.all PyVal.isReal = true
      · have hv : (PyArg.seq xs).valid x.shape.length = true := by
          simp [PyArg.valid, hlen2, hall]
        have hv2 : (PyArg.seq (xs.map PyVal.neg)).valid x.shape.length = true := by
          have h1 : (xs.map PyVal.neg).length = x.shape.length := by simpa using hlen2
          have h2 : (xs.map PyVal.neg).all PyVal.isReal = true := by
            rw [all_isReal_map_neg]; exact hall
          simp [PyArg.valid, h1, h2]
        by_cases hn : n = -1
        · subst hn
          rw [fourier_gaussian_ok x (PyArg.seq xs) hv,
            fourier_gaussian_ok x (PyArg.seq (xs.map PyVal.neg)) hv2]
          refine congrArg Except.ok (DaskArray.ext_fields _ _ rfl rfl rfl ?_)
          funext idx
          have key : ∀ i : ℕ,
              (((xs.map PyVal.neg).map PyVal.toReal).getD i 0) ^ 2 =
              ((xs.map PyVal.toReal).getD i 0) ^ 2 := by
            intro i
            rw [toVec_map_neg_getD]
            ring
          simp only [PyArg.toVec, key]
        · rw [fourier_gaussian_n_error x (PyArg.seq xs) n hv hn,
            fourier_gaussian_n_error x (PyArg.seq (xs.map PyVal.neg)) n hv2 hn]
      · have hallf : xs.all PyVal.isReal = false := by
          cases h0 : xs.all PyVal.isReal
          · rfl
          · exact absurd h0 hall
        rw [fourier_gaussian_seq_type_error x xs n hlen2 hallf,
          fourier_gaussian_seq_type_error x (xs.map PyVal.neg) n
            (by simpa using hlen2) (by rw [all_isReal_map_neg]; exact hallf)]
    · rw [fourier_gaussian_len_error x xs n hlen2,
        fourier_gaussian_len_error x (xs.map PyVal.neg) n (by simpa using hlen2)]

theorem fourier_gaussian_obj_error (x : DaskArray) (n : ℤ) :
    fourier_gaussian x (PyArg.val PyVal.obj) n = Except.error PyErr.typeError := by
  unfold fourier_gaussian
  simp [PyVal.isNumber]

theorem fourier_shift_obj_error (x : DaskArray) (n : ℤ) :
    fourier_shift x (PyArg.val PyVal.obj) n = Except.error PyErr.typeError := by
  unfold fourier_shift
  simp [PyVal.isNumber]

theorem fourier_gaussian_rank0_num (x : DaskArray) (v : PyVal) (n : ℤ)
    (hrank : x.shape.length = 0) (hnum : v.isNumber = true) :
    fourier_gaussian x (PyArg.val v) n = fourier_gaussian x (PyArg.val (PyVal.real 0)) n := by
  unfold fourier_gaussian
  have h0 : (PyVal.real 0).isNumber = true := rfl
  simp only [hnum, h0, if_true, ifdtype_shape, hrank, List.replicate_zero]

theorem fourier_shift_rank0_num (x : DaskArray) (v : PyVal) (n : ℤ)
    (hrank : x.shape.length = 0) (hnum : v.isNumber = true) :
    fourier_shift x (PyArg.val v) n = fourier_shift x (PyArg.val (PyVal.real 0)) n := by
  unfold fourier_shift
  have h0 : (PyVal.real 0).isNumber = true := rfl
  simp only [hnum, h0, if_true, ifdtype_shape, hrank, List.replicate_zero]

/-- C5: applying either filter to the same logical array under two
different chunk partitions produces numerically identical results once
both lazy graphs are fully evaluated (same error, or same shape, dtype
and values). -/
theorem chunk_partition_invariance (x y : DaskArray)
    (hshape : x.shape = y.shape) (hdtype : x.dtype = y.dtype) (hval : x.val = y.val)
    (sigma : PyArg) (n : ℤ) :
    EvalEq (fourier_gaussian x sigma n) (fourier_gaussian y sigma n) ∧
    EvalEq (fourier_shift x sigma n) (fourier_shift y sigma n) := by
  obtain ⟨ys, yc, yd, yv⟩ := y
  simp only at hshape hdtype hval
  subst hshape
  subst hdtype
  subst hval
  constructor
  · cases sigma with
    | val v =>
      cases v with
      | real r =>
        by_cases hn : n = -1
        · subst hn
          rw [fourier_gaussian_ok x (PyArg.val (PyVal.real r)) rfl,
            fourier_gaussian_ok (DaskArray.mk x.shape yc x.dtype x.val)
              (PyArg.val (PyVal.real r)) rfl]
          simp only [EvalEq]
          refine ⟨trivial, trivial, ?_⟩
          funext idx
          rw [get_freq_grid_val_eq x.shape x.chunks yc NumKind.float NumKind.float]
        · rw [fourier_gaussian_n_error x (PyArg.val (PyVal.real r)) n rfl hn,
            fourier_gaussian_n_error (DaskArray.mk x.shape yc x.dtype x.val)
              (PyArg.val (PyVal.real r)) n rfl hn]
          simp [EvalEq]
      | cplx z =>
        by_cases hrank : 1 ≤ x.shape.length
        · rw [fourier_gaussian_cplx_scalar x z n hrank,
            fourier_gaussian_cplx_scalar (DaskArray.mk x.shape yc x.dtype x.val) z n hrank]
          simp [EvalEq]
        · have h0 : x.shape.length = 0 := by omega
          rw [fourier_gaussian_rank0_num x (PyVal.cplx z) n h0 rfl,
            fourier_gaussian_rank0_num (DaskArray.mk x.shape yc x.dtype x.val)
              (PyVal.cplx z) n h0 rfl]
          by_cases hn : n = -1
          · subst hn
            rw [fourier_gaussian_ok x (PyArg.val (PyVal.real 0)) rfl,
              fourier_gaussian_ok (DaskArray.mk x.shape yc x.dtype x.val)
                (PyArg.val (PyVal.real 0)) rfl]
            simp only [EvalEq]
            refine ⟨trivial, trivial, ?_⟩
            funext idx
            rw [get_freq_grid_val_eq x.shape x.chunks yc NumKind.float NumKind.float]
          · rw [fourier_gaussian_n_error x (PyArg.val (PyVal.real 0)) n rfl hn,
              fourier_gaussian_n_error (DaskArray.mk x.shape yc x.dtype x.val)
                (PyArg.val (PyVal.real 0)) n rfl hn]
            simp [EvalEq]
      | obj =>
        rw [fourier_gaussian_obj_error x n,
          fourier_gaussian_obj_error (DaskArray.mk x.shape yc x.dtype x.val) n]
        simp [EvalEq]
    | seq xs =>
      by_cases hlen2 : xs.length = x.shape.length
      · by_cases hall : xs.all PyVal.isReal = true
        · have hv : (PyArg.seq xs).valid x.shape.length = true := by
            simp [PyArg.valid, hlen2, hall]
          by_cases hn : n = -1
          · subst hn
            rw [fourier_gaussian_ok x (PyArg.seq xs) hv,
              fourier_gaussian_ok (DaskArray.mk x.shape yc x.dtype x.val) (PyArg.seq xs) hv]
            simp only [EvalEq]
            refine ⟨trivial, trivial, ?_⟩
            funext idx
            rw [get_freq_grid_val_eq x.shape x.chunks yc NumKind.float NumKind.float]
          · rw [fourier_gaussian_n_error x (PyArg.seq xs) n hv hn,
              fourier_gaussian_n_error (DaskArray.mk x.shape yc x.dtype x.val)
                (PyArg.seq xs) n hv hn]
            simp [EvalEq]
        · have hallf : xs.all PyVal.isReal = false := by
            cases h0 : xs.all PyVal.isReal
            · rfl
            · exact absurd h0 hall
          rw [fourier_gaussian_seq_type_error x xs n hlen2 hallf,
            fourier_gaussian_seq_type_error (DaskArray.mk x.shape yc x.dtype x.val)
              xs n hlen2 hallf]
          simp [EvalEq]
      · rw [fourier_gaussian_len_error x xs n hlen2,
          fourier_gaussian_len_error (DaskArray.mk x.shape yc x.dtype x.val) xs n hlen2]
        simp [EvalEq]
  · cases sigma with
    | val v =>
      cases v with
      | real r =>
        by_cases hn : n = -1
        · subst hn
          rw [fourier_shift_ok x (PyArg.val (PyVal.real r)) rfl,
            fourier_shift_ok (DaskArray.mk x.shape yc x.dtype x.val)
              (PyArg.val (PyVal.real r)) rfl]
          simp only [EvalEq]
          refine ⟨trivial, trivial, ?_⟩
          funext idx
          rw [get_freq_grid_val_eq x.shape x.chunks yc NumKind.float NumKind.float]
        · rw [fourier_shift_n_error x (PyArg.val (PyVal.real r)) n rfl hn,
            fourier_shift_n_error (DaskArray.mk x.shape yc x.dtype x.val)
              (PyArg.val (PyVal.real r)) n rfl hn]
          simp [EvalEq]
      | cplx z =>
        by_cases hrank : 1 ≤ x.shape.length
        · rw [fourier_shift_cplx_scalar x z n hrank,
            fourier_shift_cplx_scalar (DaskArray.mk x.shape yc x.dtype x.val) z n hrank]
          simp [EvalEq]
        · have h0 : x.shape.length = 0 := by omega
          rw [fourier_shift_rank0_num x (PyVal.cplx z) n h0 rfl,
            fourier_shift_rank0_num (DaskArray.mk x.shape yc x.dtype x.val)
              (PyVal.cplx z) n h0 rfl]
          by_cases hn : n = -1
          · subst hn
            rw [fourier_shift_ok x (PyArg.val (PyVal.real 0)) rfl,
              fourier_shift_ok (DaskArray.mk x.shape yc x.dtype x.val)
                (PyArg.val (PyVal.real 0)) rfl]
            simp only [EvalEq]
            refine ⟨trivial, trivial, ?_⟩
            funext idx
            rw [get_freq_grid_val_eq x.shape x.chunks yc NumKind.float NumKind.float]
          · rw [fourier_shift_n_error x (PyArg.val (PyVal.real 0)) n rfl hn,
              fourier_shift_n_error (DaskArray.mk x.shape yc x.dtype x.val)
                (PyArg.val (PyVal.real 0)) n rfl hn]
            simp [EvalEq]
      | obj =>
        rw [fourier_shift_obj_error x n,
          fourier_shift_obj_error (DaskArray.mk x.shape yc x.dtype x.val) n]
        simp [EvalEq]
    | seq xs =>
      by_cases hlen2 : xs.length = x.shape.length
      · by_cases hall : xs.all PyVal.isReal = true
        · have hv : (PyArg.seq xs).valid x.shape.length = true := by
            simp [PyArg.valid, hlen2, hall]
          by_cases hn : n = -1
          · subst hn
            rw [fourier_shift_ok x (PyArg.seq xs) hv,
              fourier_shift_ok (DaskArray.mk x.shape yc x.dtype x.val) (PyArg.seq xs) hv]
            simp only [EvalEq]
            refine ⟨trivial, trivial, ?_⟩
            funext idx
            rw [get_freq_grid_val_eq x.shape x.chunks yc NumKind.float NumKind.float]
          · rw [fourier_shift_n_error x (PyArg.seq xs) n hv hn,
              fourier_shift_n_error (DaskArray.mk x.shape yc x.dtype x.val)
                (PyArg.seq xs) n hv hn]
            simp [EvalEq]
        · have hallf : xs.all PyVal.isReal = false := by
            cases h0 : xs.all PyVal.isReal
            · rfl
            · exact absurd h0 hall
          rw [fourier_shift_seq_type_error x xs n hlen2 hallf,
            fourier_shift_seq_type_error (DaskArray.mk x.shape yc x.dtype x.val)
              xs n hlen2 hallf]
          simp [EvalEq]
      · rw [fourier_shift_len_error x xs n hlen2,
          fourier_shift_len_error (DaskArray.mk x.shape yc x.dtype x.val) xs n hlen2]
        simp [EvalEq]

theorem chunk_partition_invariance_witness :
    sampleArr.shape = sampleArrRechunk.shape ∧
    sampleArr.dtype = sampleArrRechunk.dtype ∧
    sampleArr.val = sampleArrRechunk.val ∧
    sampleArr.chunks ≠ sampleArrRechunk.chunks ∧
    EvalEq (fourier_gaussian sampleArr (PyArg.val (PyVal.real 1)) (-1))
      (fourier_gaussian sampleArrRechunk (PyArg.val (PyVal.real 1)) (-1)) ∧
    EvalEq (fourier_shift sampleArr (PyArg.val (PyVal.real 1)) (-1))
      (fourier_shift sampleArrRechunk (PyArg.val (PyVal.real 1)) (-1)) := by
  obtain ⟨h1, h2⟩ := chunk_partition_invariance sampleArr sampleArrRechunk rfl rfl rfl
    (PyArg.val (PyVal.real 1)) (-1)
  exact ⟨rfl, rfl, rfl, by decide, h1, h2⟩
